import Mathlib

/-!
Verification development for the fused log-softmax loss of
src/specforge/core/loss.py.

The Triton kernels operate on float32 tensors; we embed their row-level
semantics over the real numbers, so every floating-point identity that
the code relies on (associativity rescaling, exp/log cancellation)
becomes an exact identity, and "equal within tolerance" statements about
the idealized computation become exact equalities.

The memory model: a Triton program instance works on one row (one
program id), the caller launches a grid of B*T independent program
instances over flattened (B*T, V) tensors.  Buffers (loss, m, d) are
modelled as lists that each program instance either overwrites at its
own index or leaves at the caller-provided initial value (the kernels
return early on masked rows and store nothing).
-/

namespace SpecForge

noncomputable section

open Classical

/-- One flattened (batch x position) row of the computation: a width-V
score (logit) vector, a width-V target weight vector, and the boolean
position mask entry for this row. -/
structure Row where
  scores : List ℝ
  target : List ℝ
  active : Bool

/-- Splits a list into consecutive chunks of size `bs`; models the
kernel loops `for i in range(0, n_cols, BLOCK_SIZE)` together with the
validity mask `offsets < n_cols` (a chunk holds exactly the in-range
elements; the final chunk may be shorter, exactly as the masked loads
drop the out-of-range lanes). -/
def chunks {α : Type} (bs : ℕ) (xs : List α) : List (List α) :=
  if h : bs = 0 ∨ xs = [] then [] else xs.take bs :: chunks bs (xs.drop bs)
termination_by xs.length
decreasing_by
  simp only [List.length_drop]
  have h1 : bs ≠ 0 ∧ xs ≠ [] := not_or.mp h
  have h2 : 0 < xs.length := List.length_pos.mpr h1.2
  omega

/-- Running-maximum accumulator step over one element.  The value
`none` plays the role of the float literal `-inf` that the kernel uses
to seed `m` (and as the `other=` sentinel of masked loads). -/
def omax (a : Option ℝ) (x : ℝ) : Option ℝ :=
  some (match a with
        | none => x
        | some m => max m x)

/-- Maximum of a list of reals, `none` for the empty list; models
`tl.max` over a block whose masked-out lanes hold `-inf`. -/
def listMax (xs : List ℝ) : Option ℝ := xs.foldl omax none

/-- Sum of `exp (x - m)` over a block; models
`tl.sum(tl.where(mask, tl.exp(logits_block - m_new), 0.0))`. -/
def sumExp (xs : List ℝ) (m : ℝ) : ℝ :=
  (xs.map (fun x => Real.exp (x - m))).sum

/-- The pass-1 accumulator of the forward kernel: the running maximum
`m` (`none` = the initial `-inf`) and the running rescaled sum of
exponentials `d`. -/
structure MD where
  m : Option ℝ
  d : ℝ

/-- One iteration of the forward kernel's online max/sum loop on a
chunk `c`:
`m_new = max(m, block_max); d = d * exp(m - m_new) + sum(exp(c - m_new))`.
When the running maximum is still `-inf` (`none`), the float rescale
factor `exp(-inf - m_new)` is `0`, which is how the first real chunk
replaces the seed values; we write that multiplication by zero
explicitly. An all-masked chunk (empty `c`) would leave the state
unchanged (`block_max = -inf`, so `m_new = m` and the added sum is 0);
the loop never produces such a chunk. -/
def mdStep (st : MD) (c : List ℝ) : MD :=
  match listMax c, st.m with
  | none, _ => st
  | some bm, none => ⟨some bm, st.d * 0 + sumExp c bm⟩
  | some bm, some m =>
      ⟨some (max m bm), st.d * Real.exp (m - max m bm) + sumExp c (max m bm)⟩

/-- Pass 1 of `log_softmax_forward_kernel`: fold the online max/sum
update over the row's chunks, starting from `m = -inf, d = 0`. -/
def mdPass (bs : ℕ) (s : List ℝ) : MD :=
  (chunks bs s).foldl mdStep ⟨none, 0⟩

/-- The mathematical value pass 1 computes: the sum of exponentials of
the max-shifted row (0 for an empty row). -/
def dOf (s : List ℝ) : ℝ :=
  match listMax s with
  | none => 0
  | some m => sumExp s m

/-- Pass 2 of `log_softmax_forward_kernel` on the zipped
(logit, target) row: per chunk, accumulate
`sum(target * ((logits - m) - log(d)))`; the chunks partition the
zipped row exactly as the masked loads partition the valid columns. -/
def lossPass (bs : ℕ) (st : List (ℝ × ℝ)) (m lg : ℝ) : ℝ :=
  ((chunks bs st).map
    (fun c => (c.map (fun p => p.2 * ((p.1 - m) - lg))).sum)).sum

/-- The forward kernel's work for one active row: run pass 1, then
pass 2 with the finalized statistics, and return the three stored
values `(-loss, m, d)`.  `st.m.getD 0` extracts the finalized running
maximum; for every row the kernel actually runs on (V >= 1) pass 1
ends with `some`, and for an empty row pass 2 is an empty loop, so the
placeholder value never influences a stored loss. -/
def forwardRow (bs : ℕ) (s t : List ℝ) : ℝ × ℝ × ℝ :=
  let st := mdPass bs s
  let m := st.m.getD 0
  (-(lossPass bs (s.zip t) m (Real.log st.d)), m, st.d)

/-- One program instance of `log_softmax_forward_kernel`: on a masked
row (`position_mask == 0`) it returns before storing anything, so the
loss/m/d slots keep the caller-provided contents `init`; on an active
row it stores the three computed values. -/
def log_softmax_forward_kernel (bs : ℕ) (r : Row) (init : ℝ × ℝ × ℝ) :
    ℝ × ℝ × ℝ :=
  if r.active then forwardRow bs r.scores r.target else init

/-- Memory touched by a forward launch: the (read-only) rows and the
three per-row output buffers. -/
structure FwdState where
  rows : List Row
  loss : List ℝ
  mStat : List ℝ
  dStat : List ℝ

/-- A grid launch of `log_softmax_forward_kernel`: program instance
`i` works on row `i` and decides the `i`-th slot of each output
buffer, leaving the slot's prior contents in place when the row is
masked.  The rows themselves are never written. -/
def forwardKernelState (bs : ℕ) (st : FwdState) : FwdState :=
  { st with
    loss := (List.range st.loss.length).map (fun i =>
      (log_softmax_forward_kernel bs (st.rows.getD i (Row.mk [] [] false))
        (st.loss.getD i 0, st.mStat.getD i 0, st.dStat.getD i 0)).1)
    mStat := (List.range st.mStat.length).map (fun i =>
      (log_softmax_forward_kernel bs (st.rows.getD i (Row.mk [] [] false))
        (st.loss.getD i 0, st.mStat.getD i 0, st.dStat.getD i 0)).2.1)
    dStat := (List.range st.dStat.length).map (fun i =>
      (log_softmax_forward_kernel bs (st.rows.getD i (Row.mk [] [] false))
        (st.loss.getD i 0, st.mStat.getD i 0, st.dStat.getD i 0)).2.2) }

/-- The forward launch as performed by `LogSoftmaxLoss.forward`: the
caller allocates the loss buffer and the two statistics buffers with
`torch.zeros` and then launches the kernel grid. -/
def forwardState (bs : ℕ) (rows : List Row) : FwdState :=
  forwardKernelState bs
    ⟨rows, List.replicate rows.length 0, List.replicate rows.length 0,
      List.replicate rows.length 0⟩

/-- Mean of a list of reals, as `tensor.mean()` over all slots. -/
def listMean (xs : List ℝ) : ℝ := xs.sum / xs.length

/-- The scalar returned by `LogSoftmaxLoss.forward`:
`loss.squeeze(1).mean()` over the B*T loss slots. -/
def forwardLoss (bs : ℕ) (rows : List Row) : ℝ :=
  listMean (forwardState bs rows).loss

/-- Pass 1 of `log_softmax_backward_kernel`: the row-wide scalar
reduction `target_grad_sum = sum(target * grad_output)` accumulated
chunk by chunk (here `g` is the already-scaled upstream gradient). -/
def tgPass (bs : ℕ) (t : List ℝ) (g : ℝ) : ℝ :=
  ((chunks bs t).map (fun c => (c.map (fun x => x * g)).sum)).sum

/-- One program instance of `log_softmax_backward_kernel`, returning
the new contents of the row's slice of the logits storage (the kernel
overwrites the scores in place).  A masked row is overwritten with
zeros chunk by chunk without reading `m`/`d`/`grad_output`; an active
row first computes `target_grad_sum`, then per element reconstructs
`softmax_prob = exp(logit - m) / d` and stores
`-(target * g - softmax_prob * target_grad_sum)`. -/
def log_softmax_backward_kernel (bs : ℕ) (s t : List ℝ) (active : Bool)
    (grad_output scaling_factor m d : ℝ) : List ℝ :=
  if active then
    let g := grad_output * scaling_factor
    let tgs := tgPass bs t g
    ((chunks bs (s.zip t)).map (fun c =>
      c.map (fun p => -(p.2 * g - Real.exp (p.1 - m) / d * tgs)))).flatten
  else
    ((chunks bs s).map (fun c => c.map (fun _ => (0 : ℝ)))).flatten

/-- Memory touched by a backward launch: the logits storage (consumed
and overwritten with the gradient), the targets, the mask, and the two
saved statistics buffers. -/
structure BwdState where
  logits : List (List ℝ)
  target : List (List ℝ)
  mask : List Bool
  mStat : List ℝ
  dStat : List ℝ

/-- A grid launch of `log_softmax_backward_kernel`: program instance
`i` replaces row `i` of the logits storage with that row's gradient;
no other field of the state is written. -/
def backwardKernelState (bs : ℕ) (grad_output scaling_factor : ℝ)
    (st : BwdState) : BwdState :=
  { st with
    logits := (List.range st.logits.length).map (fun i =>
      log_softmax_backward_kernel bs (st.logits.getD i [])
        (st.target.getD i []) (st.mask.getD i false)
        grad_output scaling_factor (st.mStat.getD i 0) (st.dStat.getD i 0)) }

/-- The pair produced by `LogSoftmaxLoss.backward`: the post-launch
state together with the returned gradient tensor, which is the
(reshaped) logits storage itself — the function returns the very
buffer it overwrote, with `scaling_factor = 1 / (B*T)`. -/
def LogSoftmaxLoss_backward (bs : ℕ) (st : BwdState) (grad_output : ℝ) :
    BwdState × List (List ℝ) :=
  let st2 := backwardKernelState bs grad_output
    (1 / (st.logits.length : ℝ)) st
  (st2, st2.logits)

/-- The full autograd backward at the row-list level: the saved
tensors are the forward call's rows and its statistics buffers, the
scaling factor is `1 / (B*T)`, and row `i` of the result is what
program instance `i` writes into the logits storage. -/
def backwardGrads (bs : ℕ) (rows : List Row) (grad_output : ℝ) :
    List (List ℝ) :=
  (List.range rows.length).map (fun i =>
    log_softmax_backward_kernel bs (rows.getD i (Row.mk [] [] false)).scores
      (rows.getD i (Row.mk [] [] false)).target
      (rows.getD i (Row.mk [] [] false)).active grad_output
      (1 / (rows.length : ℝ))
      ((forwardState bs rows).mStat.getD i 0)
      ((forwardState bs rows).dStat.getD i 0))

/-! ### The reference implementation `_compute_loss`

`logits.float(); out_logp = LogSoftmax(dim=2)(logits);
plogp = target_p * out_logp;
loss = -torch.sum(position_mask * plogp, 2).mean()`. -/

/-- The softmax partition function of a row: `sum(exp(score))`. -/
def refZ (s : List ℝ) : ℝ := (s.map Real.exp).sum

/-- Row term of the reference loss: `sum(target * log_softmax(scores))`
with the textbook `log_softmax x_i = x_i - log(sum(exp(x)))`. -/
def refRowLoss (s t : List ℝ) : ℝ :=
  ((s.zip t).map (fun p => p.2 * (p.1 - Real.log (refZ s)))).sum

/-- The reference loss `_compute_loss`: the `(B, T, 1)` position mask
broadcasts over the vocabulary axis, so a masked row's summed term is
zero; then the mean is over all B*T row slots, and the result is
negated. -/
def refLoss (rows : List Row) : ℝ :=
  -listMean (rows.map (fun r => if r.active then refRowLoss r.scores r.target else 0))

/-- True softmax probability of one score within a row. -/
def softmaxP (s : List ℝ) (x : ℝ) : ℝ := Real.exp x / refZ s

/-- Gradient of `-(refRowLoss)` with respect to the row's scores,
scaled by an upstream factor `g`: the softmax-Jacobian identity
`d/dx_i = g * (softmax_i * sum_j(target_j) - target_i)`.  This is the
calculus derivative of the reference implementation's per-row loss
(torch autograd itself is outside the repository); the theorem
`refGradRow_is_deriv` below verifies it against `refRowLoss`. -/
def refGradRow (s t : List ℝ) (g : ℝ) : List ℝ :=
  (s.zip t).map (fun p => g * (softmaxP s p.1 * t.sum - p.2))

/-- The reference backward for the whole batch: upstream scalar `g`,
mean scaling `1 / (B*T)`, zero gradient for masked rows. -/
def refGrads (rows : List Row) (g : ℝ) : List (List ℝ) :=
  rows.map (fun r =>
    if r.active then refGradRow r.scores r.target (g / (rows.length : ℝ))
    else List.replicate r.scores.length 0)

/-! ### Dispatch configuration and the tensor-level entry point -/

/-- Cap on the Triton block size, from `_calculate_settings`. -/
def MAX_FUSED_SIZE : ℕ := 65536

/-- Modelled from the spec: `triton.next_power_of_2` is an external
library helper (not part of this repository); per its documentation
and the spec it returns the smallest power of two that is at least
`n`. -/
def next_power_of_2 (n : ℕ) : ℕ := 2 ^ Nat.clog 2 n

/-- The dispatch helper `_calculate_settings`: block size is
`next_power_of_2 n`, rejected with a `RuntimeError` when it exceeds
`MAX_FUSED_SIZE`; the warp-count hint is a step function of the block
size, halved on ROCm (`hip`). -/
def calculate_settings (hip : Bool) (n : ℕ) : Except String (ℕ × ℕ) :=
  let BLOCK_SIZE := next_power_of_2 n
  if BLOCK_SIZE > MAX_FUSED_SIZE then
    .error
      s!"Cannot launch Triton kernel since n = {n} exceeds the recommended Triton blocksize = {MAX_FUSED_SIZE}."
  else
    let num_warps : ℕ :=
      if BLOCK_SIZE ≥ 32768 then 32
      else if BLOCK_SIZE ≥ 8192 then 16
      else if BLOCK_SIZE ≥ 2048 then 8
      else 4
    .ok (BLOCK_SIZE, if hip then num_warps / 2 else num_warps)

/-- A torch tensor at the granularity this file needs: a shape and the
flat (row-major) data. -/
structure Tensor where
  shape : List ℕ
  data : List ℝ

/-- Number of elements a tensor's shape declares. -/
def Tensor.numel (t : Tensor) : ℕ := t.shape.prod

/-- Models `tensor.contiguous().view(r, c)`: torch reshapes a
contiguous tensor to any shape with the same element count and fails
otherwise; the original dimensionality is not otherwise checked.  On
success the flat data is reinterpreted as `r` rows of width `c`. -/
def view2 (t : Tensor) (r c : ℕ) : Except String (List (List ℝ)) :=
  if t.numel = r * c ∧ t.data.length = t.numel then .ok (chunks c t.data)
  else .error "view: shape is invalid for input size"

/-- Models the `.bool()` conversion of a mask entry: nonzero is true. -/
def rbool (x : ℝ) : Bool := if x = 0 then false else true

/-- Assembles the per-row view of the three flattened tensors; the
kernel reads one mask scalar per row (`tl.load(position_mask_ptr)`). -/
def buildRows (ss ts ms : List (List ℝ)) : List Row :=
  List.zipWith (fun (p : List ℝ × List ℝ) (mrow : List ℝ) =>
    Row.mk p.1 p.2 (rbool (mrow.headD 0))) (ss.zip ts) ms

/-- The tensor-level `LogSoftmaxLoss.forward`: unpack
`B, T, V = logits.shape` (only possible for a 3-d logits tensor),
reshape the three arguments to their flattened views, compute the
dispatch settings, and only then launch the kernel grid on
zero-initialized output buffers.  A settings error aborts before any
kernel work. -/
def LogSoftmaxLoss_forward_t (hip : Bool) (logits target mask : Tensor) :
    Except String (ℝ × List ℝ × List ℝ) :=
  match logits.shape with
  | [B, T, V] => do
      let sRows ← view2 logits (B * T) V
      let tRows ← view2 target (B * T) V
      let mCol ← view2 mask (B * T) 1
      let settings ← calculate_settings hip V
      let st := forwardKernelState settings.1
        ⟨buildRows sRows tRows mCol, List.replicate (B * T) 0,
          List.replicate (B * T) 0, List.replicate (B * T) 0⟩
      .ok (listMean st.loss, st.mStat, st.dStat)
  | _ => .error "not enough values to unpack"

/-- Whether an `Except` computation produced a value (no exception was
raised). -/
def exceptOk {α : Type} (x : Except String α) : Bool :=
  match x with
  | .ok _ => true
  | .error _ => false

/-- Per-row contribution to the loss buffer: what slot `i` of the loss
buffer holds after the forward launch. -/
def rowContrib (bs : ℕ) (r : Row) : ℝ :=
  if r.active then (forwardRow bs r.scores r.target).1 else 0

/-- Replaces the activity flags of a row list by a new mask, keeping
every score and target vector. -/
def reMask (rows : List Row) (mask2 : List Bool) : List Row :=
  List.zipWith (fun r b => Row.mk r.scores r.target b) rows mask2

end

/-! ## Helper lemmas -/

section

lemma chunks_nil {α : Type} (bs : ℕ) : chunks bs ([] : List α) = [] := by
  rw [chunks]
  simp

lemma chunks_cons_of {α : Type} (bs : ℕ) (xs : List α) (hbs : bs ≠ 0)
    (hxs : xs ≠ []) :
    chunks bs xs = xs.take bs :: chunks bs (xs.drop bs) := by
  rw [chunks]
  simp [hbs, hxs]

lemma chunks_flatten {α : Type} (bs : ℕ) (hbs : 0 < bs) (xs : List α) :
    (chunks bs xs).flatten = xs := by
  have H : ∀ n (ys : List α), ys.length ≤ n → (chunks bs ys).flatten = ys := by
    intro n
    induction n with
    | zero =>
        intro ys hy
        have h0 : ys = [] := List.length_eq_zero.mp (Nat.le_zero.mp hy)
        subst h0
        simp [chunks_nil]
    | succ n ih =>
        intro ys hy
        by_cases hys : ys = []
        · subst hys; simp [chunks_nil]
        · rw [chunks_cons_of bs ys (Nat.pos_iff_ne_zero.mp hbs) hys]
          have h0 : 0 < ys.length := List.length_pos.mpr hys
          have hlen : (ys.drop bs).length ≤ n := by
            simp only [List.length_drop]
            omega
          simp [ih _ hlen]
  exact H xs.length xs le_rfl

lemma foldl_omax_some (ys : List ℝ) : ∀ a : ℝ,
    ys.foldl omax (some a) = some ((listMax ys).elim a (fun b => max a b)) := by
  induction ys with
  | nil => intro a; simp [listMax]
  | cons y ys ih =>
      intro a
      have h1 : (y :: ys).foldl omax (some a) = ys.foldl omax (some (max a y)) := by
        simp [omax]
      have h2 : listMax (y :: ys) = ys.foldl omax (some y) := by
        simp [listMax, omax]
      rw [h1, ih (max a y), h2, ih y]
      cases hys : listMax ys with
      | none => simp
      | some b => simp [max_assoc]

lemma listMax_cons (x : ℝ) (xs : List ℝ) :
    listMax (x :: xs) = some ((listMax xs).elim x (fun b => max x b)) := by
  have h : listMax (x :: xs) = xs.foldl omax (some x) := by simp [listMax, omax]
  rw [h, foldl_omax_some]

lemma listMax_eq_none_iff (xs : List ℝ) : listMax xs = none ↔ xs = [] := by
  cases xs with
  | nil => simp [listMax]
  | cons x xs => simp [listMax_cons]

lemma listMax_append (xs ys : List ℝ) :
    listMax (xs ++ ys) = (listMax xs).elim (listMax ys)
      (fun a => some ((listMax ys).elim a (fun b => max a b))) := by
  cases hx : listMax xs with
  | none =>
      have h0 : xs = [] := (listMax_eq_none_iff xs).mp hx
      subst h0
      simp
  | some a =>
      have h1 : listMax (xs ++ ys) = ys.foldl omax (some a) := by
        simp only [listMax, List.foldl_append]
        rw [show xs.foldl omax none = some a from hx]
      rw [h1, foldl_omax_some]
      simp

lemma listMax_spec (xs : List ℝ) (M : ℝ) (h : listMax xs = some M) :
    M ∈ xs ∧ ∀ x ∈ xs, x ≤ M := by
  induction xs generalizing M with
  | nil => simp [listMax] at h
  | cons y ys ih =>
      rw [listMax_cons] at h
      cases hy : listMax ys with
      | none =>
          rw [hy] at h
          simp at h
          have h0 : ys = [] := (listMax_eq_none_iff ys).mp hy
          subst h0
          subst h
          simp
      | some b =>
          rw [hy] at h
          simp at h
          obtain ⟨hmem, hle⟩ := ih b hy
          subst h
          constructor
          · rcases max_choice y b with h1 | h1 <;> rw [h1]
            · exact List.mem_cons_self _ _
            · exact List.mem_cons_of_mem _ hmem
          · intro x hx
            rcases List.mem_cons.mp hx with h1 | h1
            · subst h1; exact le_max_left _ _
            · exact (hle x h1).trans (le_max_right _ _)

lemma sumExp_append (xs ys : List ℝ) (m : ℝ) :
    sumExp (xs ++ ys) m = sumExp xs m + sumExp ys m := by
  simp [sumExp]

lemma sumExp_rescale (xs : List ℝ) (a b : ℝ) :
    sumExp xs a * Real.exp (a - b) = sumExp xs b := by
  induction xs with
  | nil => simp [sumExp]
  | cons x xs ih =>
      simp only [sumExp, List.map_cons, List.sum_cons] at ih ⊢
      rw [add_mul, ih, ← Real.exp_add]
      have h : x - a + (a - b) = x - b := by ring
      rw [h]

lemma sumExp_pos (xs : List ℝ) (h : xs ≠ []) (m : ℝ) : 0 < sumExp xs m := by
  cases xs with
  | nil => exact absurd rfl h
  | cons x xs =>
      simp only [sumExp, List.map_cons, List.sum_cons]
      have h1 : 0 < Real.exp (x - m) := Real.exp_pos _
      have h2 : 0 ≤ (xs.map (fun x => Real.exp (x - m))).sum := by
        apply List.sum_nonneg
        intro y hy
        obtain ⟨z, _, rfl⟩ := List.mem_map.mp hy
        exact (Real.exp_pos _).le
      linarith

lemma sumExp_eq_refZ (s : List ℝ) (m : ℝ) :
    sumExp s m = refZ s * Real.exp (-m) := by
  induction s with
  | nil => simp [sumExp, refZ]
  | cons x xs ih =>
      simp only [sumExp, refZ, List.map_cons, List.sum_cons, add_mul] at ih ⊢
      rw [ih, ← Real.exp_add]
      have h : x + -m = x - m := by ring
      rw [h]

lemma mdStep_correct (xs c : List ℝ) :
    mdStep ⟨listMax xs, dOf xs⟩ c = ⟨listMax (xs ++ c), dOf (xs ++ c)⟩ := by
  cases hc : listMax c with
  | none =>
      have hc' : c = [] := (listMax_eq_none_iff c).mp hc
      subst hc'
      simp [mdStep, listMax]
  | some bm =>
      cases hx : listMax xs with
      | none =>
          have hx' : xs = [] := (listMax_eq_none_iff xs).mp hx
          subst hx'
          simp only [List.nil_append]
          have h2 : dOf ([] : List ℝ) = 0 := rfl
          rw [h2]
          simp only [mdStep, hc, dOf]
          simp
      | some m =>
          have happ : listMax (xs ++ c) = some (max m bm) := by
            rw [listMax_append, hx, hc]
            simp
          simp only [mdStep, hc, hx, dOf, happ, sumExp_append]
          rw [sumExp_rescale]

lemma foldl_mdStep (cs : List (List ℝ)) : ∀ xs : List ℝ,
    cs.foldl mdStep ⟨listMax xs, dOf xs⟩ =
      ⟨listMax (xs ++ cs.flatten), dOf (xs ++ cs.flatten)⟩ := by
  induction cs with
  | nil => intro xs; simp
  | cons c cs ih =>
      intro xs
      simp only [List.foldl_cons, mdStep_correct, List.flatten_cons]
      rw [ih (xs ++ c), List.append_assoc]

lemma mdPass_eq (bs : ℕ) (hbs : 0 < bs) (s : List ℝ) :
    mdPass bs s = ⟨listMax s, dOf s⟩ := by
  have h0 : (⟨none, 0⟩ : MD) = ⟨listMax ([] : List ℝ), dOf []⟩ := by
    simp [listMax, dOf]
  rw [mdPass, h0, foldl_mdStep (chunks bs s) [], List.nil_append,
    chunks_flatten bs hbs]

lemma sum_map_sum_flatten {α : Type} (ls : List (List α)) (f : α → ℝ) :
    (ls.map (fun c => (c.map f).sum)).sum = (ls.flatten.map f).sum := by
  induction ls with
  | nil => simp
  | cons c ls ih => simp [ih]

lemma chunks_map_sum {α : Type} (bs : ℕ) (hbs : 0 < bs) (xs : List α)
    (f : α → ℝ) :
    ((chunks bs xs).map (fun c => (c.map f).sum)).sum = (xs.map f).sum := by
  rw [sum_map_sum_flatten, chunks_flatten bs hbs]

lemma flatten_map_map {α β : Type} (ls : List (List α)) (f : α → β) :
    (ls.map (fun c => c.map f)).flatten = ls.flatten.map f := by
  induction ls with
  | nil => simp
  | cons c ls ih =>
      simp only [List.map_cons, List.flatten_cons, List.map_append, ih]

lemma chunks_map_flatten {α β : Type} (bs : ℕ) (hbs : 0 < bs) (xs : List α)
    (f : α → β) :
    ((chunks bs xs).map (fun c => c.map f)).flatten = xs.map f := by
  rw [flatten_map_map, chunks_flatten bs hbs]

lemma lossPass_eq (bs : ℕ) (hbs : 0 < bs) (st : List (ℝ × ℝ)) (m lg : ℝ) :
    lossPass bs st m lg = (st.map (fun p => p.2 * ((p.1 - m) - lg))).sum :=
  chunks_map_sum bs hbs st _

lemma tgPass_eq (bs : ℕ) (hbs : 0 < bs) (t : List ℝ) (g : ℝ) :
    tgPass bs t g = t.sum * g := by
  rw [tgPass, chunks_map_sum bs hbs t _]
  induction t with
  | nil => simp
  | cons x xs ih => simp [ih, add_mul]

lemma backward_kernel_active (bs : ℕ) (hbs : 0 < bs) (s t : List ℝ)
    (go sc m d : ℝ) :
    log_softmax_backward_kernel bs s t true go sc m d =
      (s.zip t).map (fun p =>
        -(p.2 * (go * sc) - Real.exp (p.1 - m) / d * (t.sum * (go * sc)))) := by
  simp [log_softmax_backward_kernel, chunks_map_flatten bs hbs,
    tgPass_eq bs hbs]

lemma backward_kernel_inactive (bs : ℕ) (hbs : 0 < bs) (s t : List ℝ)
    (go sc m d : ℝ) :
    log_softmax_backward_kernel bs s t false go sc m d =
      List.replicate s.length 0 := by
  simp only [log_softmax_backward_kernel, Bool.false_eq_true, if_false,
    chunks_map_flatten bs hbs]
  simp

lemma getD_replicate {α : Type} (n i : ℕ) (a : α) :
    (List.replicate n a).getD i a = a := by
  induction n generalizing i with
  | zero => simp
  | succ n ih =>
      cases i with
      | zero => simp
      | succ i => simp [ih i]

lemma range_map_getD {α β : Type} (l : List α) (d : α) (f : α → β) :
    (List.range l.length).map (fun i => f (l.getD i d)) = l.map f := by
  induction l with
  | nil => simp
  | cons a l ih =>
      have hcomp : ((fun i => f ((a :: l).getD i d)) ∘ Nat.succ) =
          (fun i => f (l.getD i d)) := by
        funext i
        simp
      rw [List.length_cons, List.range_succ_eq_map, List.map_cons,
        List.map_map, hcomp, ih]
      simp

lemma getD_map_lt {α β : Type} (l : List α) (f : α → β) (i : ℕ)
    (hi : i < l.length) (db : β) (da : α) :
    (l.map f).getD i db = f (l.getD i da) := by
  induction l generalizing i with
  | nil => simp at hi
  | cons a l ih =>
      cases i with
      | zero => simp
      | succ i =>
          simp only [List.map_cons, List.getD_cons_succ]
          exact ih i (by simpa using hi)

lemma forwardState_rows (bs : ℕ) (rows : List Row) :
    (forwardState bs rows).rows = rows := rfl

lemma forwardState_loss (bs : ℕ) (rows : List Row) :
    (forwardState bs rows).loss = rows.map (rowContrib bs) := by
  simp only [forwardState, forwardKernelState, List.length_replicate]
  have h1 : ∀ i, (List.replicate rows.length (0 : ℝ)).getD i 0 = 0 :=
    fun i => getD_replicate _ _ _
  simp only [h1]
  rw [range_map_getD rows (Row.mk [] [] false)
    (fun r => (log_softmax_forward_kernel bs r (0, 0, 0)).1)]
  apply List.map_congr_left
  intro r _
  by_cases h : r.active <;> simp [log_softmax_forward_kernel, rowContrib, h]

lemma forwardState_mStat (bs : ℕ) (rows : List Row) :
    (forwardState bs rows).mStat = rows.map (fun r =>
      if r.active then (forwardRow bs r.scores r.target).2.1 else 0) := by
  simp only [forwardState, forwardKernelState, List.length_replicate]
  have h1 : ∀ i, (List.replicate rows.length (0 : ℝ)).getD i 0 = 0 :=
    fun i => getD_replicate _ _ _
  simp only [h1]
  rw [range_map_getD rows (Row.mk [] [] false)
    (fun r => (log_softmax_forward_kernel bs r (0, 0, 0)).2.1)]
  apply List.map_congr_left
  intro r _
  by_cases h : r.active <;> simp [log_softmax_forward_kernel, h]

lemma forwardState_dStat (bs : ℕ) (rows : List Row) :
    (forwardState bs rows).dStat = rows.map (fun r =>
      if r.active then (forwardRow bs r.scores r.target).2.2 else 0) := by
  simp only [forwardState, forwardKernelState, List.length_replicate]
  have h1 : ∀ i, (List.replicate rows.length (0 : ℝ)).getD i 0 = 0 :=
    fun i => getD_replicate _ _ _
  simp only [h1]
  rw [range_map_getD rows (Row.mk [] [] false)
    (fun r => (log_softmax_forward_kernel bs r (0, 0, 0)).2.2)]
  apply List.map_congr_left
  intro r _
  by_cases h : r.active <;> simp [log_softmax_forward_kernel, h]

lemma listMax_isSome (s : List ℝ) (hs : s ≠ []) : ∃ M, listMax s = some M := by
  cases h : listMax s with
  | none => exact absurd ((listMax_eq_none_iff s).mp h) hs
  | some M => exact ⟨M, rfl⟩

lemma refZ_pos (s : List ℝ) (h : s ≠ []) : 0 < refZ s := by
  cases s with
  | nil => exact absurd rfl h
  | cons x xs =>
      simp only [refZ, List.map_cons, List.sum_cons]
      have h2 : 0 ≤ (xs.map Real.exp).sum := by
        apply List.sum_nonneg
        intro y hy
        obtain ⟨z, _, rfl⟩ := List.mem_map.mp hy
        exact (Real.exp_pos _).le
      have h3 := Real.exp_pos x
      linarith

lemma log_sumExp (s : List ℝ) (M : ℝ) (h : listMax s = some M) :
    Real.log (sumExp s M) = Real.log (refZ s) - M := by
  have hne : s ≠ [] := by
    intro h0
    subst h0
    simp [listMax] at h
  rw [sumExp_eq_refZ,
    Real.log_mul (ne_of_gt (refZ_pos s hne)) (Real.exp_ne_zero _),
    Real.log_exp]
  ring

lemma forwardRow_stats (bs : ℕ) (hbs : 0 < bs) (s t : List ℝ) (M : ℝ)
    (h : listMax s = some M) :
    (forwardRow bs s t).2.1 = M ∧ (forwardRow bs s t).2.2 = sumExp s M := by
  simp only [forwardRow, mdPass_eq bs hbs, dOf, h]
  simp

lemma forwardRow_loss_eq_ref (bs : ℕ) (hbs : 0 < bs) (s t : List ℝ) :
    (forwardRow bs s t).1 = -refRowLoss s t := by
  by_cases hs : s = []
  · subst hs
    simp [forwardRow, refRowLoss, lossPass, chunks_nil]
  · obtain ⟨M, hM⟩ := listMax_isSome s hs
    simp only [forwardRow, mdPass_eq bs hbs, hM, Option.getD_some]
    congr 1
    rw [lossPass_eq bs hbs]
    have hd : dOf s = sumExp s M := by simp [dOf, hM]
    rw [hd, log_sumExp s M hM, refRowLoss]
    congr 1
    apply List.map_congr_left
    intro p _
    ring

lemma backward_eq_refGradRow (bs : ℕ) (hbs : 0 < bs) (s t : List ℝ)
    (go sc : ℝ) :
    log_softmax_backward_kernel bs s t true go sc
      (forwardRow bs s t).2.1 (forwardRow bs s t).2.2 =
      refGradRow s t (go * sc) := by
  by_cases hs : s = []
  · subst hs
    simp [backward_kernel_active bs hbs, refGradRow]
  · obtain ⟨M, hM⟩ := listMax_isSome s hs
    obtain ⟨hm, hd⟩ := forwardRow_stats bs hbs s t M hM
    rw [backward_kernel_active bs hbs, hm, hd, refGradRow]
    apply List.map_congr_left
    intro p _
    have hZ : 0 < refZ s := refZ_pos s hs
    have hrw : Real.exp (p.1 - M) / sumExp s M = softmaxP s p.1 := by
      rw [sumExp_eq_refZ, softmaxP, Real.exp_sub, Real.exp_neg]
      have h1 := Real.exp_ne_zero M
      have h2 := ne_of_gt hZ
      field_simp
    rw [hrw]
    ring

lemma sum_map_neg_fun {α : Type} (l : List α) (f : α → ℝ) :
    (l.map (fun x => -f x)).sum = -((l.map f).sum) := by
  induction l with
  | nil => simp
  | cons a l ih =>
      simp only [List.map_cons, List.sum_cons, ih]
      ring

lemma forwardLoss_eq_refLoss (bs : ℕ) (hbs : 0 < bs) (rows : List Row) :
    forwardLoss bs rows = refLoss rows := by
  rw [forwardLoss, forwardState_loss bs rows, refLoss]
  have h : rows.map (rowContrib bs) = rows.map (fun r =>
      -(if r.active then refRowLoss r.scores r.target else 0)) := by
    apply List.map_congr_left
    intro r _
    by_cases ha : r.active <;>
      simp [rowContrib, ha, forwardRow_loss_eq_ref bs hbs]
  rw [h]
  simp only [listMean, sum_map_neg_fun, List.length_map, neg_div]

lemma backwardGrads_eq_refGrads (bs : ℕ) (hbs : 0 < bs) (rows : List Row)
    (g : ℝ) :
    backwardGrads bs rows g = refGrads rows g := by
  rw [backwardGrads, refGrads,
    ← range_map_getD rows (Row.mk [] [] false) (fun r =>
      if r.active then refGradRow r.scores r.target (g / (rows.length : ℝ))
      else List.replicate r.scores.length 0)]
  apply List.map_congr_left
  intro i hi
  have hi' : i < rows.length := List.mem_range.mp hi
  have hm : (forwardState bs rows).mStat.getD i 0 =
      (if (rows.getD i (Row.mk [] [] false)).active then
        (forwardRow bs (rows.getD i (Row.mk [] [] false)).scores
          (rows.getD i (Row.mk [] [] false)).target).2.1 else 0) := by
    rw [forwardState_mStat,
      getD_map_lt rows _ i hi' 0 (Row.mk [] [] false)]
  have hd : (forwardState bs rows).dStat.getD i 0 =
      (if (rows.getD i (Row.mk [] [] false)).active then
        (forwardRow bs (rows.getD i (Row.mk [] [] false)).scores
          (rows.getD i (Row.mk [] [] false)).target).2.2 else 0) := by
    rw [forwardState_dStat,
      getD_map_lt rows _ i hi' 0 (Row.mk [] [] false)]
  cases ha : (rows.getD i (Row.mk [] [] false)).active with
  | false =>
      simp only [hm, hd, ha, Bool.false_eq_true, if_false]
      rw [backward_kernel_inactive bs hbs]
  | true =>
      simp only [hm, hd, ha, if_true]
      rw [backward_eq_refGradRow bs hbs, mul_one_div]

lemma listMax_map_add (s : List ℝ) (c : ℝ) :
    listMax (s.map (fun x => x + c)) = (listMax s).map (fun m => m + c) := by
  induction s with
  | nil => simp [listMax]
  | cons x xs ih =>
      rw [List.map_cons, listMax_cons, listMax_cons, ih]
      cases h : listMax xs with
      | none => simp
      | some b => simp [max_add_add_right]

lemma sumExp_map_add (s : List ℝ) (c m : ℝ) :
    sumExp (s.map (fun x => x + c)) (m + c) = sumExp s m := by
  rw [sumExp, sumExp, List.map_map]
  congr 1
  apply List.map_congr_left
  intro x _
  simp only [Function.comp_apply]
  have h : x + c - (m + c) = x - m := by ring
  rw [h]

lemma refZ_map_add (s : List ℝ) (c : ℝ) :
    refZ (s.map (fun x => x + c)) = refZ s * Real.exp c := by
  induction s with
  | nil => simp [refZ]
  | cons x xs ih =>
      simp only [refZ, List.map_cons, List.sum_cons, add_mul] at ih ⊢
      rw [ih, Real.exp_add]

lemma refRowLoss_map_add (s t : List ℝ) (c : ℝ) (hs : s ≠ []) :
    refRowLoss (s.map (fun x => x + c)) t = refRowLoss s t := by
  rw [refRowLoss, refRowLoss, refZ_map_add,
    Real.log_mul (ne_of_gt (refZ_pos s hs)) (Real.exp_ne_zero c),
    Real.log_exp, List.zip_map_left, List.map_map]
  congr 1
  apply List.map_congr_left
  intro p _
  simp only [Function.comp_apply, Prod.map_fst, Prod.map_snd, id_eq]
  ring

lemma forwardRow_shift (bs : ℕ) (hbs : 0 < bs) (s t : List ℝ) (c : ℝ)
    (hs : s ≠ []) :
    (forwardRow bs (s.map (fun x => x + c)) t).2.1 =
        (forwardRow bs s t).2.1 + c ∧
      (forwardRow bs (s.map (fun x => x + c)) t).2.2 =
        (forwardRow bs s t).2.2 ∧
      (forwardRow bs (s.map (fun x => x + c)) t).1 = (forwardRow bs s t).1 := by
  obtain ⟨M, hM⟩ := listMax_isSome s hs
  have hM' : listMax (s.map (fun x => x + c)) = some (M + c) := by
    rw [listMax_map_add, hM]
    rfl
  obtain ⟨hm1, hd1⟩ := forwardRow_stats bs hbs s t M hM
  obtain ⟨hm2, hd2⟩ := forwardRow_stats bs hbs (s.map (fun x => x + c)) t
    (M + c) hM'
  refine ⟨?_, ?_, ?_⟩
  · rw [hm2, hm1]
  · rw [hd2, hd1, sumExp_map_add]
  · rw [forwardRow_loss_eq_ref bs hbs, forwardRow_loss_eq_ref bs hbs,
      refRowLoss_map_add s t c hs]

lemma backward_shift (bs : ℕ) (hbs : 0 < bs) (s t : List ℝ)
    (go sc m d c : ℝ) :
    log_softmax_backward_kernel bs (s.map (fun x => x + c)) t true go sc
      (m + c) d = log_softmax_backward_kernel bs s t true go sc m d := by
  rw [backward_kernel_active bs hbs, backward_kernel_active bs hbs,
    List.zip_map_left, List.map_map]
  apply List.map_congr_left
  intro p _
  simp only [Function.comp_apply, Prod.map_fst, Prod.map_snd, id_eq]
  have h : p.1 + c - (m + c) = p.1 - m := by ring
  rw [h]

lemma le_np2 (n : ℕ) : n ≤ next_power_of_2 n :=
  Nat.le_pow_clog (by norm_num) n

lemma np2_min (n k : ℕ) (h : n ≤ 2 ^ k) : next_power_of_2 n ≤ 2 ^ k := by
  have h1 : Nat.clog 2 n ≤ k := (Nat.le_pow_iff_clog_le (by norm_num)).mp h
  exact Nat.pow_le_pow_right (by norm_num) h1

lemma calculate_settings_ok (hip : Bool) (n : ℕ)
    (h : next_power_of_2 n ≤ MAX_FUSED_SIZE) :
    ∃ nw, calculate_settings hip n = .ok (next_power_of_2 n, nw) := by
  simp only [calculate_settings, if_neg (not_lt.mpr h)]
  exact ⟨_, rfl⟩

lemma calculate_settings_error (hip : Bool) (n : ℕ)
    (h : MAX_FUSED_SIZE < next_power_of_2 n) :
    calculate_settings hip n = .error
      s!"Cannot launch Triton kernel since n = {n} exceeds the recommended Triton blocksize = {MAX_FUSED_SIZE}." := by
  rw [calculate_settings]
  simp only [if_pos h]

lemma ebind_ok {α β : Type} (a : α) (f : α → Except String β) :
    (Except.ok a >>= f) = f a := rfl

lemma ebind_error {α β : Type} (e : String) (f : α → Except String β) :
    ((Except.error e : Except String α) >>= f) = Except.error e := rfl

lemma exceptOk_bind_error {α β : Type} (x : Except String α)
    (f : α → Except String β) (hf : ∀ a, exceptOk (f a) = false) :
    exceptOk (x >>= f) = false := by
  cases x with
  | error e => rfl
  | ok a => rw [ebind_ok]; exact hf a

lemma getD_zip (s t : List ℝ) (i : ℕ) (hs : i < s.length)
    (ht : i < t.length) :
    (s.zip t).getD i (0, 0) = (s.getD i 0, t.getD i 0) := by
  induction s generalizing t i with
  | nil => simp at hs
  | cons a s ih =>
      cases t with
      | nil => simp at ht
      | cons b t =>
          cases i with
          | zero => simp
          | succ i =>
              simp only [List.zip_cons_cons, List.getD_cons_succ]
              exact ih t i (by simpa using hs) (by simpa using ht)

lemma sum_set (l : List ℝ) (i : ℕ) (a : ℝ) (hi : i < l.length) :
    (l.set i a).sum = l.sum - l.getD i 0 + a := by
  induction l generalizing i with
  | nil => simp at hi
  | cons x l ih =>
      cases i with
      | zero =>
          simp only [List.set_cons_zero, List.sum_cons, List.getD_cons_zero]
          ring
      | succ i =>
          simp only [List.set_cons_succ, List.sum_cons, List.getD_cons_succ]
          rw [ih i (by simpa using hi)]
          ring

lemma zip_set (s t : List ℝ) (i : ℕ) (y : ℝ) (hs : i < s.length)
    (ht : i < t.length) :
    (s.set i y).zip t = (s.zip t).set i (y, t.getD i 0) := by
  induction s generalizing t i with
  | nil => simp at hs
  | cons a s ih =>
      cases t with
      | nil => simp at ht
      | cons b t =>
          cases i with
          | zero => simp
          | succ i =>
              simp only [List.set_cons_succ, List.zip_cons_cons,
                List.getD_cons_succ]
              rw [ih t i (by simpa using hs) (by simpa using ht)]

lemma sum_zip_mul_sub (l : List (ℝ × ℝ)) (cst : ℝ) :
    (l.map (fun p => p.2 * (p.1 - cst))).sum =
      (l.map (fun p => p.2 * p.1)).sum - cst * (l.map Prod.snd).sum := by
  induction l with
  | nil => simp
  | cons p l ih =>
      simp only [List.map_cons, List.sum_cons, ih]
      ring

lemma refZ_set (s : List ℝ) (i : ℕ) (y : ℝ) (hi : i < s.length) :
    refZ (s.set i y) = refZ s - Real.exp (s.getD i 0) + Real.exp y := by
  rw [refZ, List.map_set, sum_set _ i _ (by simpa using hi), refZ,
    getD_map_lt s Real.exp i hi 0 0]

lemma refRowLoss_set (s t : List ℝ) (i : ℕ) (y : ℝ) (hi : i < s.length)
    (hlen : t.length = s.length) :
    refRowLoss (s.set i y) t =
      ((s.zip t).map (fun p => p.2 * p.1)).sum - t.getD i 0 * s.getD i 0 +
          t.getD i 0 * y -
        Real.log (refZ s - Real.exp (s.getD i 0) + Real.exp y) * t.sum := by
  have hit : i < t.length := by omega
  have hiz : i < (s.zip t).length := by
    rw [List.length_zip]
    omega
  rw [refRowLoss, refZ_set s i y hi,
    zip_set s t i y hi hit, sum_zip_mul_sub, List.map_set, List.map_set,
    sum_set _ i _ (by simpa using hiz), sum_set _ i _ (by simpa using hiz),
    getD_map_lt (s.zip t) (fun p => p.2 * p.1) i hiz 0 (0, 0),
    getD_map_lt (s.zip t) Prod.snd i hiz 0 (0, 0),
    getD_zip s t i hi hit, List.map_snd_zip s t (le_of_eq hlen)]
  ring

lemma refGradRow_getD (s t : List ℝ) (g : ℝ) (i : ℕ) (hi : i < s.length)
    (hlen : t.length = s.length) :
    (refGradRow s t g).getD i 0 =
      g * (softmaxP s (s.getD i 0) * t.sum - t.getD i 0) := by
  have hiz : i < (s.zip t).length := by
    rw [List.length_zip]
    omega
  rw [refGradRow,
    getD_map_lt (s.zip t) _ i hiz 0 (0, 0), getD_zip s t i hi (by omega)]

/-- The formula `refGradRow` (with unit upstream factor) really is the
derivative of the reference implementation's negated per-row loss with
respect to the `i`-th score: this discharges the only part of the
reference backward pass that lives outside the repository (torch
autograd). -/
theorem refGradRow_is_deriv (s t : List ℝ) (i : ℕ) (hi : i < s.length)
    (hlen : t.length = s.length) :
    HasDerivAt (fun y => -refRowLoss (s.set i y) t)
      ((refGradRow s t 1).getD i 0) (s.getD i 0) := by
  have hs : s ≠ [] := by
    intro h0
    subst h0
    simp at hi
  have hZ : 0 < refZ s := refZ_pos s hs
  have hfun : (fun y => -refRowLoss (s.set i y) t) = (fun y =>
      -(((s.zip t).map (fun p => p.2 * p.1)).sum -
          t.getD i 0 * s.getD i 0 + t.getD i 0 * y -
        Real.log (refZ s - Real.exp (s.getD i 0) + Real.exp y) * t.sum)) := by
    funext y
    rw [refRowLoss_set s t i y hi hlen]
  have hval : refZ s - Real.exp (s.getD i 0) + Real.exp (s.getD i 0) =
      refZ s := by ring
  have h1 : HasDerivAt (fun y => refZ s - Real.exp (s.getD i 0) + Real.exp y)
      (Real.exp (s.getD i 0)) (s.getD i 0) :=
    (Real.hasDerivAt_exp (s.getD i 0)).const_add
      (refZ s - Real.exp (s.getD i 0))
  have hne : refZ s - Real.exp (s.getD i 0) + Real.exp (s.getD i 0) ≠ 0 := by
    rw [hval]
    exact ne_of_gt hZ
  have h3 : HasDerivAt (fun y =>
      Real.log (refZ s - Real.exp (s.getD i 0) + Real.exp y))
      (Real.exp (s.getD i 0) /
        (refZ s - Real.exp (s.getD i 0) + Real.exp (s.getD i 0)))
      (s.getD i 0) := h1.log hne
  have h4 := h3.mul_const t.sum
  have h5 : HasDerivAt (fun y =>
      ((s.zip t).map (fun p => p.2 * p.1)).sum -
        t.getD i 0 * s.getD i 0 + t.getD i 0 * y)
      (t.getD i 0) (s.getD i 0) := by
    have h6 := (hasDerivAt_id (s.getD i 0)).const_mul (t.getD i 0)
    rw [mul_one] at h6
    exact h6.const_add _
  have h7 := (h5.sub h4).neg
  rw [hfun]
  convert h7 using 1
  rw [refGradRow_getD s t 1 i hi hlen, hval, softmaxP]
  ring

lemma getD_range (n i : ℕ) (hi : i < n) : (List.range n).getD i 0 = i := by
  rw [List.getD_eq_getElem _ _ (by simpa using hi), List.getElem_range]

lemma getD_range_map {β : Type} (f : ℕ → β) (n i : ℕ) (hi : i < n) (d : β) :
    ((List.range n).map f).getD i d = f i := by
  rw [getD_map_lt (List.range n) f i (by simpa using hi) d 0,
    getD_range n i hi]

lemma forwardKernelState_frame (bs : ℕ) (st : FwdState) :
    (forwardKernelState bs st).rows = st.rows := rfl

lemma forwardKernelState_inactive (bs : ℕ) (st : FwdState) (i : ℕ)
    (hl : i < st.loss.length) (hm : i < st.mStat.length)
    (hd : i < st.dStat.length)
    (ha : (st.rows.getD i (Row.mk [] [] false)).active = false) :
    (forwardKernelState bs st).loss.getD i 0 = st.loss.getD i 0 ∧
      (forwardKernelState bs st).mStat.getD i 0 = st.mStat.getD i 0 ∧
      (forwardKernelState bs st).dStat.getD i 0 = st.dStat.getD i 0 := by
  refine ⟨?_, ?_, ?_⟩
  · simp only [forwardKernelState]
    rw [getD_range_map _ _ i hl, log_softmax_forward_kernel,
      if_neg (by rw [ha]; simp)]
  · simp only [forwardKernelState]
    rw [getD_range_map _ _ i hm, log_softmax_forward_kernel,
      if_neg (by rw [ha]; simp)]
  · simp only [forwardKernelState]
    rw [getD_range_map _ _ i hd, log_softmax_forward_kernel,
      if_neg (by rw [ha]; simp)]

lemma backwardKernelState_frame (bs : ℕ) (go sc : ℝ) (st : BwdState) :
    (backwardKernelState bs go sc st).target = st.target ∧
      (backwardKernelState bs go sc st).mask = st.mask ∧
      (backwardKernelState bs go sc st).mStat = st.mStat ∧
      (backwardKernelState bs go sc st).dStat = st.dStat :=
  ⟨rfl, rfl, rfl, rfl⟩

lemma backwardKernelState_logits_getD (bs : ℕ) (go sc : ℝ) (st : BwdState)
    (i : ℕ) (hi : i < st.logits.length) :
    (backwardKernelState bs go sc st).logits.getD i [] =
      log_softmax_backward_kernel bs (st.logits.getD i [])
        (st.target.getD i []) (st.mask.getD i false) go sc
        (st.mStat.getD i 0) (st.dStat.getD i 0) := by
  simp only [backwardKernelState]
  exact getD_range_map _ _ i hi []

lemma forward_t_over_cap (hip : Bool) (lg tg mk : Tensor) (B T V : ℕ)
    (hsh : lg.shape = [B, T, V]) (h : MAX_FUSED_SIZE < next_power_of_2 V) :
    exceptOk (LogSoftmaxLoss_forward_t hip lg tg mk) = false := by
  unfold LogSoftmaxLoss_forward_t
  rw [hsh]
  apply exceptOk_bind_error
  intro sRows
  apply exceptOk_bind_error
  intro tRows
  apply exceptOk_bind_error
  intro mCol
  rw [calculate_settings_error hip V h]
  rfl

lemma forward_t_numel_mismatch (hip : Bool) (lg tg mk : Tensor) (B T V : ℕ)
    (hsh : lg.shape = [B, T, V])
    (h : tg.numel ≠ B * T * V ∨ mk.numel ≠ B * T) :
    exceptOk (LogSoftmaxLoss_forward_t hip lg tg mk) = false := by
  unfold LogSoftmaxLoss_forward_t
  rw [hsh]
  apply exceptOk_bind_error
  intro sRows
  cases h with
  | inl h =>
      have hv : view2 tg (B * T) V = .error
          "view: shape is invalid for input size" := by
        rw [view2, if_neg]
        rintro ⟨h1, h2⟩
        exact h (by rw [h1, mul_assoc])
      rw [hv]
      rfl
  | inr h =>
      apply exceptOk_bind_error
      intro tRows
      have hv : view2 mk (B * T) 1 = .error
          "view: shape is invalid for input size" := by
        rw [view2, if_neg]
        rintro ⟨h1, h2⟩
        exact h (by rw [h1, mul_one])
      rw [hv]
      rfl

lemma sum_map_mul (t : List ℝ) (g : ℝ) :
    (t.map (fun x => x * g)).sum = t.sum * g := by
  induction t with
  | nil => simp
  | cons x xs ih => simp [ih, add_mul]

end

/-! ## Claims -/

section

/-- C1: over the idealized real-number semantics the fused forward pass
returns exactly the same scalar loss as the naive full-softmax reference
`_compute_loss`, and the fused backward pass returns exactly the
reference gradient with respect to the scores, for every batch of rows,
every positive chunk size, and every upstream scalar gradient; exact
equality in particular implies agreement within any tolerance such as
1e-4.  The reference gradient `refGrads` is the calculus derivative of
the reference loss, certified against `refRowLoss` by
`refGradRow_is_deriv`. -/
theorem c1_fused_matches_reference (bs : ℕ) (hbs : 0 < bs)
    (rows : List Row) (g : ℝ) :
    forwardLoss bs rows = refLoss rows ∧
      backwardGrads bs rows g = refGrads rows g :=
  ⟨forwardLoss_eq_refLoss bs hbs rows,
   backwardGrads_eq_refGrads bs hbs rows g⟩

theorem c1_witness :
    forwardLoss 1 [Row.mk [0] [1] true] = refLoss [Row.mk [0] [1] true] ∧
      backwardGrads 1 [Row.mk [0] [1] true] 1 =
        refGrads [Row.mk [0] [1] true] 1 :=
  c1_fused_matches_reference 1 Nat.one_pos [Row.mk [0] [1] true] 1

/-- C2: for every active row, the backward launch writes into that
row's gradient slot the vector whose element at `(score, target)` is
`-(target * g - softmax * target_grad_sum)`, where `g` is the upstream
scalar gradient times the scaling factor `1/(B*T)`, `softmax` is
`exp(score - row_max) / row_partition` reconstructed from the forward
pass's saved statistics, and `target_grad_sum` is the completed
row-wide reduction `sum(target * g)` appearing as a finished scalar in
every element (so it is computed fully before any element is
written). -/
theorem c2_backward_formula (bs : ℕ) (hbs : 0 < bs) (rows : List Row)
    (grad_output : ℝ) (i : ℕ) (hi : i < rows.length)
    (ha : (rows.getD i (Row.mk [] [] false)).active = true) :
    (backwardGrads bs rows grad_output).getD i [] =
      ((rows.getD i (Row.mk [] [] false)).scores.zip
          (rows.getD i (Row.mk [] [] false)).target).map (fun p =>
        -(p.2 * (grad_output * (1 / (rows.length : ℝ))) -
          Real.exp (p.1 -
              (forwardRow bs (rows.getD i (Row.mk [] [] false)).scores
                (rows.getD i (Row.mk [] [] false)).target).2.1) /
            (forwardRow bs (rows.getD i (Row.mk [] [] false)).scores
              (rows.getD i (Row.mk [] [] false)).target).2.2 *
          (((rows.getD i (Row.mk [] [] false)).target.map
            (fun x => x * (grad_output * (1 / (rows.length : ℝ))))).sum))) := by
  rw [backwardGrads, getD_range_map _ _ i hi]
  have hm : (forwardState bs rows).mStat.getD i 0 =
      (forwardRow bs (rows.getD i (Row.mk [] [] false)).scores
        (rows.getD i (Row.mk [] [] false)).target).2.1 := by
    rw [forwardState_mStat, getD_map_lt rows _ i hi 0 (Row.mk [] [] false),
      if_pos ha]
  have hd : (forwardState bs rows).dStat.getD i 0 =
      (forwardRow bs (rows.getD i (Row.mk [] [] false)).scores
        (rows.getD i (Row.mk [] [] false)).target).2.2 := by
    rw [forwardState_dStat, getD_map_lt rows _ i hi 0 (Row.mk [] [] false),
      if_pos ha]
  rw [hm, hd, ha, backward_kernel_active bs hbs, sum_map_mul]

theorem c2_witness :
    (backwardGrads 1 [Row.mk [0] [1] true] 1).getD 0 [] =
      (([Row.mk [0] [1] true].getD 0 (Row.mk [] [] false)).scores.zip
          ([Row.mk [0] [1] true].getD 0 (Row.mk [] [] false)).target).map
        (fun p =>
        -(p.2 * (1 * (1 / (([Row.mk [0] [1] true] : List Row).length : ℝ))) -
          Real.exp (p.1 -
              (forwardRow 1
                ([Row.mk [0] [1] true].getD 0 (Row.mk [] [] false)).scores
                ([Row.mk [0] [1] true].getD 0
                  (Row.mk [] [] false)).target).2.1) /
            (forwardRow 1
              ([Row.mk [0] [1] true].getD 0 (Row.mk [] [] false)).scores
              ([Row.mk [0] [1] true].getD 0 (Row.mk [] [] false)).target).2.2 *
          ((([Row.mk [0] [1] true].getD 0 (Row.mk [] [] false)).target.map
            (fun x => x *
              (1 * (1 / (([Row.mk [0] [1] true] : List Row).length : ℝ))))).sum))) :=
  c2_backward_formula 1 Nat.one_pos [Row.mk [0] [1] true] 1 0 (by decide) rfl

/-- C3: after pass 1 of the forward kernel on an active row, the saved
`row_max` statistic is the true maximum of the row (a member of the
row that bounds every element), and the saved `row_partition` is the
sum of `exp(score - row_max)`, which is strictly positive; in
particular for the row `[1, 2, 3, 4]` the saved statistics are
`row_max = 4` and `row_partition = exp(-3)+exp(-2)+exp(-1)+exp(0)`. -/
theorem c3_forward_statistics :
    (∀ (bs : ℕ) (s t : List ℝ) (M : ℝ), 0 < bs → listMax s = some M →
      (forwardRow bs s t).2.1 = M ∧
      (forwardRow bs s t).2.2 = sumExp s M ∧
      0 < (forwardRow bs s t).2.2 ∧ M ∈ s ∧ ∀ x ∈ s, x ≤ M) ∧
    (forwardRow 4 [1, 2, 3, 4] [0, 0, 1, 0]).2.1 = 4 ∧
    (forwardRow 4 [1, 2, 3, 4] [0, 0, 1, 0]).2.2 =
      Real.exp (-3) + Real.exp (-2) + Real.exp (-1) + Real.exp 0 := by
  have hgen : ∀ (bs : ℕ) (s t : List ℝ) (M : ℝ), 0 < bs →
      listMax s = some M →
      (forwardRow bs s t).2.1 = M ∧
      (forwardRow bs s t).2.2 = sumExp s M ∧
      0 < (forwardRow bs s t).2.2 ∧ M ∈ s ∧ ∀ x ∈ s, x ≤ M := by
    intro bs s t M hbs hM
    obtain ⟨hm, hd⟩ := forwardRow_stats bs hbs s t M hM
    have hs : s ≠ [] := by
      intro h0
      subst h0
      simp [listMax] at hM
    obtain ⟨hmem, hle⟩ := listMax_spec s M hM
    exact ⟨hm, hd, by rw [hd]; exact sumExp_pos s hs M, hmem, hle⟩
  have h34 : max (3 : ℝ) 4 = 4 := max_eq_right (by norm_num)
  have h24 : max (2 : ℝ) 4 = 4 := max_eq_right (by norm_num)
  have h14 : max (1 : ℝ) 4 = 4 := max_eq_right (by norm_num)
  have hn : listMax ([] : List ℝ) = none := rfl
  have hM : listMax [1, 2, 3, 4] = some 4 := by
    rw [listMax_cons, listMax_cons, listMax_cons, listMax_cons, hn]
    simp only [Option.elim_none, Option.elim_some]
    rw [h34, h24, h14]
  obtain ⟨hc1, hc2, _, _, _⟩ := hgen 4 [1, 2, 3, 4] [0, 0, 1, 0] 4
    (by norm_num) hM
  refine ⟨hgen, hc1, ?_⟩
  rw [hc2]
  simp only [sumExp, List.map_cons, List.map_nil, List.sum_cons,
    List.sum_nil]
  norm_num
  ring

theorem c3_witness :
    (forwardRow 1 [0] []).2.1 = 0 ∧
      (forwardRow 1 [0] []).2.2 = sumExp [0] 0 :=
  ⟨(c3_forward_statistics.1 1 [0] [] 0 Nat.one_pos rfl).1,
   (c3_forward_statistics.1 1 [0] [] 0 Nat.one_pos rfl).2.1⟩

/-- C4: the scalar returned by the forward pass is the sum of the
per-row loss contributions divided by the number of row slots B*T; an
inactive row contributes exactly 0 to the numerator; and replacing the
activity mask by any other mask of the same length changes only the
numerator while the divisor stays the fixed slot count B*T. -/
theorem c4_mean_semantics (bs : ℕ) (rows : List Row) (mask2 : List Bool)
    (hm : mask2.length = rows.length) :
    forwardLoss bs rows =
        (rows.map (rowContrib bs)).sum / (rows.length : ℝ) ∧
      (∀ r : Row, r.active = false → rowContrib bs r = 0) ∧
      forwardLoss bs (reMask rows mask2) =
        ((reMask rows mask2).map (rowContrib bs)).sum / (rows.length : ℝ) := by
  have hlen : (reMask rows mask2).length = rows.length := by
    rw [reMask, List.length_zipWith, hm, min_self]
  refine ⟨?_, ?_, ?_⟩
  · rw [forwardLoss, forwardState_loss, listMean, List.length_map]
  · intro r hr
    simp [rowContrib, hr]
  · rw [forwardLoss, forwardState_loss, listMean, List.length_map, hlen]

theorem c4_witness :
    forwardLoss 1 [Row.mk [0] [1] true] =
        ([Row.mk [0] [1] true].map (rowContrib 1)).sum /
          (([Row.mk [0] [1] true] : List Row).length : ℝ) ∧
      forwardLoss 1 (reMask [Row.mk [0] [1] true] [false]) =
        ((reMask [Row.mk [0] [1] true] [false]).map (rowContrib 1)).sum /
          (([Row.mk [0] [1] true] : List Row).length : ℝ) :=
  ⟨(c4_mean_semantics 1 [Row.mk [0] [1] true] [false] rfl).1,
   (c4_mean_semantics 1 [Row.mk [0] [1] true] [false] rfl).2.2⟩

/-- C5: on an inactive row the backward kernel overwrites the whole
row with the zero vector, and its output is independent of both the
upstream gradient value and the saved statistics (it never reads
them): the result is unchanged under any other upstream gradient and
any other values of the saved `(row_max, row_partition)` pair. -/
theorem c5_inactive_backward (bs : ℕ) (hbs : 0 < bs) (s t : List ℝ)
    (go sc m d go' m' d' : ℝ) :
    log_softmax_backward_kernel bs s t false go sc m d =
        List.replicate s.length 0 ∧
      log_softmax_backward_kernel bs s t false go sc m d =
        log_softmax_backward_kernel bs s t false go' sc m' d' := by
  refine ⟨backward_kernel_inactive bs hbs s t go sc m d, ?_⟩
  rw [backward_kernel_inactive bs hbs, backward_kernel_inactive bs hbs]

theorem c5_witness :
    log_softmax_backward_kernel 1 [5] [7] false 3 1 11 13 =
        List.replicate (([5] : List ℝ).length) 0 ∧
      log_softmax_backward_kernel 1 [5] [7] false 3 1 11 13 =
        log_softmax_backward_kernel 1 [5] [7] false 4 1 12 14 :=
  c5_inactive_backward 1 Nat.one_pos [5] [7] 3 1 11 13 4 12 14

/-- C6: shifting every score of an active row by the same constant `c`
shifts the saved `row_max` by exactly `c`, leaves the saved
`row_partition` unchanged, leaves the row's stored loss contribution
unchanged, and leaves the backward kernel's gradient row (computed
from the correspondingly saved statistics) unchanged. -/
theorem c6_shift_invariance (bs : ℕ) (hbs : 0 < bs) (s t : List ℝ)
    (c : ℝ) (hs : s ≠ []) (go sc : ℝ) :
    (forwardRow bs (s.map (fun x => x + c)) t).2.1 =
        (forwardRow bs s t).2.1 + c ∧
      (forwardRow bs (s.map (fun x => x + c)) t).2.2 =
        (forwardRow bs s t).2.2 ∧
      (forwardRow bs (s.map (fun x => x + c)) t).1 =
        (forwardRow bs s t).1 ∧
      log_softmax_backward_kernel bs (s.map (fun x => x + c)) t true go sc
          (forwardRow bs (s.map (fun x => x + c)) t).2.1
          (forwardRow bs (s.map (fun x => x + c)) t).2.2 =
        log_softmax_backward_kernel bs s t true go sc
          (forwardRow bs s t).2.1 (forwardRow bs s t).2.2 := by
  obtain ⟨h1, h2, h3⟩ := forwardRow_shift bs hbs s t c hs
  refine ⟨h1, h2, h3, ?_⟩
  rw [h1, h2, backward_shift bs hbs]

theorem c6_witness :
    (forwardRow 1 (([0] : List ℝ).map (fun x => x + 1)) [1]).2.1 =
        (forwardRow 1 [0] [1]).2.1 + 1 ∧
      (forwardRow 1 (([0] : List ℝ).map (fun x => x + 1)) [1]).2.2 =
        (forwardRow 1 [0] [1]).2.2 ∧
      (forwardRow 1 (([0] : List ℝ).map (fun x => x + 1)) [1]).1 =
        (forwardRow 1 [0] [1]).1 ∧
      log_softmax_backward_kernel 1 (([0] : List ℝ).map (fun x => x + 1))
          [1] true 1 1
          (forwardRow 1 (([0] : List ℝ).map (fun x => x + 1)) [1]).2.1
          (forwardRow 1 (([0] : List ℝ).map (fun x => x + 1)) [1]).2.2 =
        log_softmax_backward_kernel 1 [0] [1] true 1 1
          (forwardRow 1 [0] [1]).2.1 (forwardRow 1 [0] [1]).2.2 :=
  c6_shift_invariance 1 Nat.one_pos [0] [1] 1 (List.cons_ne_nil 0 []) 1 1

/-- C7: for a positive row width `n` the dispatch helper's block size
`next_power_of_2 n` is the least power of two at least `n`; when that
block size is within the cap `MAX_FUSED_SIZE = 65536` the helper
returns it together with a warp hint, and when it exceeds the cap the
helper raises the `RuntimeError` naming the offending width and the
cap; moreover for an over-wide row the tensor-level forward entry
point produces no result at all (the error aborts the computation
before any kernel work). -/
theorem c7_dispatch (hip : Bool) (n : ℕ) (hn : 0 < n) :
    (n ≤ next_power_of_2 n ∧ (∃ k, next_power_of_2 n = 2 ^ k) ∧
      ∀ (m k : ℕ), m = 2 ^ k → n ≤ m → next_power_of_2 n ≤ m) ∧
    (next_power_of_2 n ≤ MAX_FUSED_SIZE →
      ∃ nw, calculate_settings hip n = .ok (next_power_of_2 n, nw)) ∧
    (MAX_FUSED_SIZE < next_power_of_2 n →
      calculate_settings hip n = .error
        s!"Cannot launch Triton kernel since n = {n} exceeds the recommended Triton blocksize = {MAX_FUSED_SIZE}.") ∧
    (∀ (lg tg mk : Tensor) (B T V : ℕ), lg.shape = [B, T, V] →
      MAX_FUSED_SIZE < next_power_of_2 V →
      exceptOk (LogSoftmaxLoss_forward_t hip lg tg mk) = false) := by
  refine ⟨⟨le_np2 n, ⟨_, rfl⟩, ?_⟩, calculate_settings_ok hip n,
    calculate_settings_error hip n, ?_⟩
  · rintro m k rfl hle
    exact np2_min n k hle
  · intro lg tg mk B T V hsh h
    exact forward_t_over_cap hip lg tg mk B T V hsh h

theorem c7_witness :
    4 ≤ next_power_of_2 4 ∧
      calculate_settings false 65537 = .error
        s!"Cannot launch Triton kernel since n = {(65537 : ℕ)} exceeds the recommended Triton blocksize = {MAX_FUSED_SIZE}." :=
  ⟨(c7_dispatch false 4 (by decide)).1.1,
   (c7_dispatch false 65537 (by decide)).2.2.1
     (lt_of_lt_of_le (by norm_num [MAX_FUSED_SIZE]) (le_np2 65537))⟩

/-- C8: the backward pass is destructive and in-place: the gradient
value it returns is exactly the post-launch contents of the logits
storage (the buffer holding the scores saved at forward time), every
row of that storage is overwritten with that row's gradient, and the
saved row-statistics buffers (together with the targets and the mask)
are only read — they are bytewise unchanged by the launch. -/
theorem c8_inplace_backward (bs : ℕ) (st : BwdState) (g : ℝ) :
    (LogSoftmaxLoss_backward bs st g).2 =
        (LogSoftmaxLoss_backward bs st g).1.logits ∧
      (LogSoftmaxLoss_backward bs st g).1.mStat = st.mStat ∧
      (LogSoftmaxLoss_backward bs st g).1.dStat = st.dStat ∧
      (LogSoftmaxLoss_backward bs st g).1.target = st.target ∧
      (LogSoftmaxLoss_backward bs st g).1.mask = st.mask ∧
      ∀ i, i < st.logits.length →
        (LogSoftmaxLoss_backward bs st g).1.logits.getD i [] =
          log_softmax_backward_kernel bs (st.logits.getD i [])
            (st.target.getD i []) (st.mask.getD i false) g
            (1 / (st.logits.length : ℝ)) (st.mStat.getD i 0)
            (st.dStat.getD i 0) := by
  refine ⟨rfl, rfl, rfl, rfl, rfl, ?_⟩
  intro i hi
  exact backwardKernelState_logits_getD bs g _ st i hi

theorem c8_witness :
    (LogSoftmaxLoss_backward 1 (BwdState.mk [[0]] [[1]] [true] [0] [1]) 1).2 =
        (LogSoftmaxLoss_backward 1
          (BwdState.mk [[0]] [[1]] [true] [0] [1]) 1).1.logits ∧
      (LogSoftmaxLoss_backward 1
          (BwdState.mk [[0]] [[1]] [true] [0] [1]) 1).1.mStat = [0] ∧
      (LogSoftmaxLoss_backward 1
          (BwdState.mk [[0]] [[1]] [true] [0] [1]) 1).1.logits.getD 0 [] =
        log_softmax_backward_kernel 1
          ((BwdState.mk [[(0 : ℝ)]] [[1]] [true] [0] [1]).logits.getD 0 [])
          ((BwdState.mk [[(0 : ℝ)]] [[1]] [true] [0] [1]).target.getD 0 [])
          ((BwdState.mk [[(0 : ℝ)]] [[1]] [true] [0] [1]).mask.getD 0 false)
          1
          (1 / (((BwdState.mk [[(0 : ℝ)]] [[1]] [true] [0]
            [1]).logits.length : ℝ)))
          ((BwdState.mk [[(0 : ℝ)]] [[1]] [true] [0] [1]).mStat.getD 0 0)
          ((BwdState.mk [[(0 : ℝ)]] [[1]] [true] [0] [1]).dStat.getD 0 0) :=
  ⟨(c8_inplace_backward 1 (BwdState.mk [[0]] [[1]] [true] [0] [1]) 1).1,
   (c8_inplace_backward 1 (BwdState.mk [[0]] [[1]] [true] [0] [1]) 1).2.1,
   (c8_inplace_backward 1 (BwdState.mk [[0]] [[1]] [true] [0] [1]) 1).2.2.2.2.2
     0 (by decide)⟩

/-- C9 as stated is false on the code: the forward entry point
performs no explicit shape validation, and a call whose target tensor
has a different 3-d shape than the logits — but the same element
count — is accepted and runs to completion instead of being rejected:
logits of shape `[1, 1, 2]` with a target of shape `[2, 1, 1]` produce
a normally-returned loss value. -/
theorem c9_counterexample :
    exceptOk (LogSoftmaxLoss_forward_t false (Tensor.mk [1, 1, 2] [0, 0])
        (Tensor.mk [2, 1, 1] [0, 0]) (Tensor.mk [1, 1, 1] [1])) = true ∧
      (Tensor.mk [2, 1, 1] ([0, 0] : List ℝ)).shape ≠
        (Tensor.mk [1, 1, 2] ([0, 0] : List ℝ)).shape := by
  constructor
  · have hnp : next_power_of_2 2 = 2 :=
      le_antisymm (np2_min 2 1 (by norm_num)) (le_np2 2)
    have h1 : view2 (Tensor.mk [1, 1, 2] ([0, 0] : List ℝ)) (1 * 1) 2 =
        .ok (chunks 2 [0, 0]) := by
      rw [view2, if_pos]
      exact ⟨by decide, by decide⟩
    have h2 : view2 (Tensor.mk [2, 1, 1] ([0, 0] : List ℝ)) (1 * 1) 2 =
        .ok (chunks 2 [0, 0]) := by
      rw [view2, if_pos]
      exact ⟨by decide, by decide⟩
    have h3 : view2 (Tensor.mk [1, 1, 1] ([1] : List ℝ)) (1 * 1) 1 =
        .ok (chunks 1 [1]) := by
      rw [view2, if_pos]
      exact ⟨by decide, by decide⟩
    obtain ⟨nw, hset⟩ := calculate_settings_ok false 2
      (by rw [hnp]; norm_num [MAX_FUSED_SIZE])
    show exceptOk (do
      let sRows ← view2 (Tensor.mk [1, 1, 2] ([0, 0] : List ℝ)) (1 * 1) 2
      let tRows ← view2 (Tensor.mk [2, 1, 1] ([0, 0] : List ℝ)) (1 * 1) 2
      let mCol ← view2 (Tensor.mk [1, 1, 1] ([1] : List ℝ)) (1 * 1) 1
      let settings ← calculate_settings false 2
      let st := forwardKernelState settings.1
        ⟨buildRows sRows tRows mCol, List.replicate (1 * 1) 0,
          List.replicate (1 * 1) 0, List.replicate (1 * 1) 0⟩
      Except.ok (listMean st.loss, st.mStat, st.dStat)) = true
    rw [h1, ebind_ok, h2, ebind_ok, h3, ebind_ok, hset, ebind_ok]
    rfl
  · decide

/-- C9 amended: there is no explicit defensive shape validation; the
only rejection is the one the `view` reshapes perform, which checks
element counts alone.  A call whose target tensor cannot be viewed as
`(B*T, V)` or whose mask cannot be viewed as `(B*T, 1)` (element-count
mismatch) fails before any kernel work, while mismatched shapes with
compatible element counts are silently accepted
(`c9_counterexample`). -/
theorem c9_amended_view_rejection (hip : Bool) (lg tg mk : Tensor)
    (B T V : ℕ) (hsh : lg.shape = [B, T, V])
    (h : tg.numel ≠ B * T * V ∨ mk.numel ≠ B * T) :
    exceptOk (LogSoftmaxLoss_forward_t hip lg tg mk) = false :=
  forward_t_numel_mismatch hip lg tg mk B T V hsh h

theorem c9_amended_witness :
    exceptOk (LogSoftmaxLoss_forward_t false (Tensor.mk [1, 1, 2] [0, 0])
      (Tensor.mk [3] [0, 0, 0]) (Tensor.mk [1] [1])) = false :=
  c9_amended_view_rejection false (Tensor.mk [1, 1, 2] [0, 0])
    (Tensor.mk [3] [0, 0, 0]) (Tensor.mk [1] [1]) 1 1 2 rfl
    (Or.inl (by decide))

/-- C10: a forward launch never modifies its inputs — the rows
(scores, targets, mask) after the launch are exactly the rows before
it — and the only written storage is the loss buffer and the two
statistics buffers; on an inactive row the kernel writes nothing at
all, so those slots keep whatever the caller put there, and since
`LogSoftmaxLoss.forward` zero-initializes the buffers the inactive
row's loss and statistics are 0 purely by initialization. -/
theorem c10_forward_frame (bs : ℕ) (rows : List Row) (i : ℕ)
    (hi : i < rows.length)
    (ha : (rows.getD i (Row.mk [] [] false)).active = false) :
    (forwardState bs rows).rows = rows ∧
      (∀ st : FwdState, (forwardKernelState bs st).rows = st.rows) ∧
      (∀ st : FwdState, st.rows = rows → i < st.loss.length →
        i < st.mStat.length → i < st.dStat.length →
        (forwardKernelState bs st).loss.getD i 0 = st.loss.getD i 0 ∧
        (forwardKernelState bs st).mStat.getD i 0 = st.mStat.getD i 0 ∧
        (forwardKernelState bs st).dStat.getD i 0 = st.dStat.getD i 0) ∧
      (forwardState bs rows).loss.getD i 0 = 0 ∧
      (forwardState bs rows).mStat.getD i 0 = 0 ∧
      (forwardState bs rows).dStat.getD i 0 = 0 := by
  have hzero := forwardKernelState_inactive bs
    ⟨rows, List.replicate rows.length 0, List.replicate rows.length 0,
      List.replicate rows.length 0⟩ i
    (by simpa using hi) (by simpa using hi) (by simpa using hi) ha
  refine ⟨rfl, fun st => rfl, ?_, ?_, ?_, ?_⟩
  · intro st hrows hl hm hd
    exact forwardKernelState_inactive bs st i hl hm hd (by rw [hrows]; exact ha)
  · rw [forwardState, hzero.1, getD_replicate]
  · rw [forwardState, hzero.2.1, getD_replicate]
  · rw [forwardState, hzero.2.2, getD_replicate]

theorem c10_witness :
    (forwardState 1 [Row.mk [0] [1] false]).rows = [Row.mk [0] [1] false] ∧
      (forwardState 1 [Row.mk [0] [1] false]).loss.getD 0 0 = 0 ∧
      (forwardState 1 [Row.mk [0] [1] false]).mStat.getD 0 0 = 0 ∧
      (forwardState 1 [Row.mk [0] [1] false]).dStat.getD 0 0 = 0 :=
  ⟨(c10_forward_frame 1 [Row.mk [0] [1] false] 0 (by decide) rfl).1,
   (c10_forward_frame 1 [Row.mk [0] [1] false] 0 (by decide) rfl).2.2.2.1,
   (c10_forward_frame 1 [Row.mk [0] [1] false] 0 (by decide) rfl).2.2.2.2.1,
   (c10_forward_frame 1 [Row.mk [0] [1] false] 0 (by decide) rfl).2.2.2.2.2⟩

end

end SpecForge
